import Mathlib

/-!
# Verification of the Chinese text classifier (`main.go`)

A shallow embedding of the categorization engine of the single-file Go
program: the Script Filter (`isChineseText`), the Character Extractor
(`extractChineseCharacters`), the Frequency Ranker (`capitalizePhrase`,
`countFrequencies`, `sortByFrequency`), the Phrase Chunker
(`extractNounPhrases`, `extractVerbPhrases`) and the Classifier
(the token loop of `categorizeChineseText`), together with theorems
settling the specification's claims about them.

Go strings are UTF-8 and every loop in the program ranges over runes, so a
Go string is embedded as a Lean `String` and rune iteration as iteration
over `String.data : List Char`.  Go slices become Lean lists, with slice
`append` becoming list `++` in the same left-to-right order.  The Go map
`map[string]int` becomes an association list with unique keys built in
first-insertion order; since Go randomizes map iteration order, every
consumer of a map's `range` is quantified over permutations of that list.
-/

/-- Embeds Go's `unicode.Is(unicode.Han, r)`: membership of a rune in the
Unicode Han script, given by the ranges of Go's `unicode.Han` range table
(CJK radicals, Kangxi radicals, ideographic iteration/number marks, CJK
Unified Ideographs and their extensions, and compatibility ideographs). -/
def isHan (c : Char) : Bool :=
  let n := c.toNat
  (0x2E80 ≤ n && n ≤ 0x2E99) || (0x2E9B ≤ n && n ≤ 0x2EF3) ||
  (0x2F00 ≤ n && n ≤ 0x2FD5) || (n == 0x3005) || (n == 0x3007) ||
  (0x3021 ≤ n && n ≤ 0x3029) || (0x3038 ≤ n && n ≤ 0x303B) ||
  (0x3400 ≤ n && n ≤ 0x4DBF) || (0x4E00 ≤ n && n ≤ 0x9FFF) ||
  (0xF900 ≤ n && n ≤ 0xFA6D) || (0xFA70 ≤ n && n ≤ 0xFAD9) ||
  (0x20000 ≤ n && n ≤ 0x2A6DF) || (0x2A700 ≤ n && n ≤ 0x2B739) ||
  (0x2B740 ≤ n && n ≤ 0x2B81D) || (0x2B820 ≤ n && n ≤ 0x2CEA1) ||
  (0x2CEB0 ≤ n && n ≤ 0x2EBE0) || (0x2EBF0 ≤ n && n ≤ 0x2EE5D) ||
  (0x2F800 ≤ n && n ≤ 0x2FA1D) || (0x30000 ≤ n && n ≤ 0x3134A) ||
  (0x31350 ≤ n && n ≤ 0x323AF)

/-- `isChineseText` (main.go:30-37).  The Go loop returns `false` as soon as
it meets a rune `r` with `!unicode.Is(unicode.Han, r) && r != ' ' && r != '-'`
and returns `true` when the loop finishes, i.e. it returns `true` iff every
rune is Han, a space, or a hyphen. -/
def isChineseText (text : String) : Bool :=
  text.data.all (fun r => isHan r || r == ' ' || r == '-')

/-- `extractChineseCharacters` (main.go:40-48): the loop over the runes of
`text`, appending `string(r)` to the result slice whenever `r` is Han. -/
def extractChineseCharacters (text : String) : List String :=
  text.data.foldl
    (fun characters r =>
      if isHan r then characters ++ [String.mk [r]] else characters) []

/-- Models Go's `unicode.ToUpper`.  The model is exact on ASCII; on every
character class this program feeds it (Han ideographs, space, hyphen)
Unicode defines no uppercase mapping, so `unicode.ToUpper` is the identity
there, as this model is. -/
def toUpper (c : Char) : Char :=
  if 97 ≤ c.toNat ∧ c.toNat ≤ 122 then Char.ofNat (c.toNat - 32) else c

/-- `capitalizePhrase` (main.go:51-57): converts the string to a rune slice,
upper-cases the first rune when the slice is non-empty, and converts back. -/
def capitalizePhrase (phrase : String) : String :=
  match phrase.data with
  | [] => String.mk []
  | c :: rest => String.mk (toUpper c :: rest)

/-- One step of the `counts[capitalizedItem]++` map update of
`countFrequencies` (main.go:60-67), on the association-list model of the
Go map: increment the existing key or add the key with count 1. -/
def bumpCount (counts : List (String × Nat)) (key : String) :
    List (String × Nat) :=
  match counts with
  | [] => [(key, 1)]
  | (k, n) :: rest =>
      if k = key then (k, n + 1) :: rest else (k, n) :: bumpCount rest key

/-- `countFrequencies` (main.go:60-67): folds `counts[capitalizePhrase item]++`
over the content in order.  The resulting association list has unique keys;
its order is the first-insertion order, and Go's randomized map iteration
is modelled downstream by quantifying over its permutations. -/
def countFrequencies (content : List String) : List (String × Nat) :=
  content.foldl (fun counts item => bumpCount counts (capitalizePhrase item)) []

/-- Reads a key's count out of the association-list model of the Go map
(`0` for an absent key, Go's zero value). -/
def getCount (counts : List (String × Nat)) (k : String) : Nat :=
  match counts with
  | [] => 0
  | (k', n) :: rest => if k' = k then n else getCount rest k

/-- The ordering used by `sortByFrequency` (main.go:79-81): `a` may precede
`b` when `a`'s frequency is at least `b`'s.  Go's `sort.Slice` is called with
the strict comparison `items[i].Frequency > items[j].Frequency`; a sort that
is stable for that comparison is exactly `List.insertionSort` with this
non-strict relation. -/
def freqGe (a b : String × Nat) : Prop := b.2 ≤ a.2

instance : DecidableRel freqGe := fun a b => Nat.decLe b.2 a.2

instance : IsTotal (String × Nat) freqGe := ⟨fun a b => Nat.le_total b.2 a.2⟩

instance : IsTrans (String × Nat) freqGe :=
  ⟨fun _ _ _ h h' => Nat.le_trans h' h⟩

/-- The sorted `itemFrequency` slice of `sortByFrequency` (main.go:70-81).
The argument `entries` is the sequence the `for item, freq := range counts`
loop produced, in whatever order Go's randomized map iteration yielded it;
`sort.Slice` with `Frequency i > Frequency j` is modelled as the stable
insertion sort by descending frequency (Go's `sort.Slice` runs insertion
sort, which is stable, on the small slices of the concrete runs considered
here). -/
def sortEntries (entries : List (String × Nat)) : List (String × Nat) :=
  List.insertionSort freqGe entries

/-- `sortByFrequency` (main.go:70-87): sorts the entries by descending
frequency and keeps only the item strings. -/
def sortByFrequency (entries : List (String × Nat)) : List String :=
  (sortEntries entries).map Prod.fst

/-- The per-category output writing loop of `categorizeChineseText`
(main.go:223-229): each ranked item becomes one newline-terminated line of
the category's output file. -/
def renderCategory (entries : List (String × Nat)) : String :=
  String.join ((sortByFrequency entries).map (fun item => item ++ "\n"))

/-- A tagged token as produced by the external tokenizer/tagger
(`prose.Token`): surface text plus part-of-speech tag. -/
structure Token where
  text : String
  tag : String
deriving DecidableEq, Repr

/-- The common loop body of `extractNounPhrases` (main.go:90-113) and
`extractVerbPhrases` (main.go:116-139), parameterized by the tag group of
the `case` line: tokens failing `isChineseText` are skipped with the
pending buffer untouched; in-group Chinese tokens extend the buffer;
other Chinese tokens flush a non-empty buffer as one space-joined phrase.
`cur` is the running `currentPhrase` buffer. -/
def chunkAux (grp : List String) (tokens : List Token) (cur : List String) :
    List String :=
  match tokens with
  | [] => if cur = [] then [] else [String.intercalate " " cur]
  | t :: rest =>
      if isChineseText t.text then
        if t.tag ∈ grp then chunkAux grp rest (cur ++ [t.text])
        else if cur = [] then chunkAux grp rest []
        else String.intercalate " " cur :: chunkAux grp rest []
      else chunkAux grp rest cur

/-- `extractNounPhrases` (main.go:90-113): the chunking loop with the
noun tag group `DT, NN, JJ`, starting from an empty buffer; the trailing
`if len(currentPhrase) > 0` flush is the `[]` case of `chunkAux`. -/
def extractNounPhrases (tokens : List Token) : List String :=
  chunkAux ["DT", "NN", "JJ"] tokens []

/-- `extractVerbPhrases` (main.go:116-139): the chunking loop with the
verb tag group `VB, RB, MD`, starting from an empty buffer. -/
def extractVerbPhrases (tokens : List Token) : List String :=
  chunkAux ["VB", "RB", "MD"] tokens []

/-- `matchesPhraseList` (main.go:235-242): whether the whole phrase equals
some list entry under `strings.EqualFold` (Unicode simple case folding,
modelled by ASCII folding, which is exact on the caseless Han, space and
hyphen characters this program compares and on ASCII). -/
def foldChar (c : Char) : Char :=
  if 65 ≤ c.toNat ∧ c.toNat ≤ 90 then Char.ofNat (c.toNat + 32) else c

/-- `strings.EqualFold`: rune-wise equality under simple case folding. -/
def eqFold (s t : String) : Bool :=
  s.data.map foldChar == t.data.map foldChar

/-- `matchesPhraseList` (main.go:235-242). -/
def matchesPhraseList (phrase : String) (list : List String) : Bool :=
  list.any (fun item => eqFold item phrase)

/-- The category lists the token-classification loop of
`categorizeChineseText` (main.go:180-208) appends to, i.e. the entries of
the `results` map that loop touches.  Each field keeps the order of
appending. -/
structure Classified where
  characters : List String
  nouns : List String
  verbs : List String
  adjectives : List String
  adverbs : List String
  otherExpressions : List String
  idioms : List String
  slang : List String
deriving Repr, DecidableEq

/-- The empty `results` map (main.go:180). -/
def Classified.empty : Classified := ⟨[], [], [], [], [], [], [], []⟩

/-- One iteration of the token loop of `categorizeChineseText`
(main.go:183-208): tokens failing `isChineseText` contribute nothing;
a Chinese token contributes its characters, its text to exactly the bucket
its tag selects (`switch` with `default`), and its text to Idioms and/or
Slang when `matchesPhraseList` accepts it. -/
def classifyStep (idiomList slangList : List String) (r : Classified)
    (t : Token) : Classified :=
  if isChineseText t.text then
    let r1 :=
      { r with characters := r.characters ++ extractChineseCharacters t.text }
    let r2 :=
      if t.tag = "NN" then { r1 with nouns := r1.nouns ++ [t.text] }
      else if t.tag = "VB" then { r1 with verbs := r1.verbs ++ [t.text] }
      else if t.tag = "JJ" then
        { r1 with adjectives := r1.adjectives ++ [t.text] }
      else if t.tag = "RB" then { r1 with adverbs := r1.adverbs ++ [t.text] }
      else { r1 with otherExpressions := r1.otherExpressions ++ [t.text] }
    let r3 :=
      if matchesPhraseList t.text idiomList then
        { r2 with idioms := r2.idioms ++ [t.text] }
      else r2
    if matchesPhraseList t.text slangList then
      { r3 with slang := r3.slang ++ [t.text] }
    else r3
  else r

/-- The whole token-classification loop of `categorizeChineseText`
(main.go:183-208) over the tagger's token stream. -/
def categorizeTokens (idiomList slangList : List String)
    (tokens : List Token) : Classified :=
  tokens.foldl (classifyStep idiomList slangList) Classified.empty

/-- The fixed idiom reference list (main.go:177). -/
def idioms : List String := ["井底之蛙", "守株待兔", "画蛇添足", "纸上谈兵"]

/-- The fixed slang reference list (main.go:178). -/
def slang : List String := ["吃土", "学霸", "宅男", "高富帅"]

/-! ## Basic lemmas about characters and the Script Filter -/

theorem isHan_lower_bound (c : Char) (h : isHan c = true) : 0x2E80 ≤ c.toNat := by
  simp only [isHan, Bool.or_eq_true, Bool.and_eq_true, decide_eq_true_eq,
    beq_iff_eq] at h
  omega

theorem toUpper_eq_self_of_chinese (c : Char)
    (h : isHan c = true ∨ c = ' ' ∨ c = '-') : toUpper c = c := by
  rcases h with h | h | h
  · have := isHan_lower_bound c h
    unfold toUpper
    rw [if_neg]
    omega
  · subst h; rfl
  · subst h; rfl

/-- Folding the character-appending loop body from any initial slice appends
the Han runes, as single-character strings, in order. -/
theorem foldl_extract_chars (l : List Char) (init : List String) :
    l.foldl
      (fun characters r =>
        if isHan r then characters ++ [String.mk [r]] else characters) init
      = init ++ (l.filter (fun c => isHan c)).map (fun c => String.mk [c]) := by
  induction l generalizing init with
  | nil => simp
  | cons c l ih =>
      by_cases h : isHan c <;> simp [h, ih, List.filter_cons]

/-- C7: `isChineseText s` is true iff every character of `s` is a Han-script
character, a space, or a hyphen; in particular it is true on the empty
string, and false as soon as one character lies outside that set. -/
theorem isChineseText_spec :
    (∀ s : String,
      isChineseText s = true ↔ ∀ c ∈ s.data, isHan c = true ∨ c = ' ' ∨ c = '-') ∧
    isChineseText "" = true := by
  constructor
  · intro s
    simp [isChineseText, List.all_eq_true, or_assoc]
  · decide

/-- Witness for C7 at concrete inputs: "红 -" passes the filter. -/
theorem isChineseText_spec_witness : isChineseText "红 -" = true :=
  (isChineseText_spec.1 "红 -").mpr (by decide)

/-- C8: `extractChineseCharacters s` is the in-order list of the Han
characters of `s`, each as a single-character string; its length is the
number of Han characters of `s`, and no element is the empty string (non-Han
characters are dropped, not emitted as empty strings). -/
theorem extractChineseCharacters_spec :
    ∀ s : String,
      extractChineseCharacters s
        = (s.data.filter (fun c => isHan c)).map (fun c => String.mk [c]) ∧
      (extractChineseCharacters s).length = s.data.countP (fun c => isHan c) ∧
      ∀ cs ∈ extractChineseCharacters s,
        (∃ c, isHan c = true ∧ cs = String.mk [c]) ∧ cs ≠ "" := by
  intro s
  have heq : extractChineseCharacters s
      = (s.data.filter (fun c => isHan c)).map (fun c => String.mk [c]) := by
    unfold extractChineseCharacters
    simpa using foldl_extract_chars s.data []
  refine ⟨heq, ?_, ?_⟩
  · rw [heq, List.length_map, List.countP_eq_length_filter]
  · intro cs hcs
    rw [heq] at hcs
    obtain ⟨c, hc, rfl⟩ := List.mem_map.mp hcs
    have hhan : isHan c = true := by
      have := List.of_mem_filter hc
      simpa using this
    refine ⟨⟨c, hhan, rfl⟩, ?_⟩
    intro hbad
    have : ([c] : List Char) = [] := congrArg String.data hbad
    simp at this

/-- Witness for C8 at a concrete input. -/
theorem extractChineseCharacters_spec_witness :
    (∃ c, isHan c = true ∧ "红" = String.mk [c]) ∧ "红" ≠ "" :=
  (extractChineseCharacters_spec "红-花 ").2.2 "红" (by decide)

/-- C9: `capitalizePhrase` is the identity on the empty string and on every
string whose first character is Han; hence it is the identity on every
string accepted by the Script Filter, so frequency ranking never alters
the text of an all-Chinese item. -/
theorem capitalizePhrase_id_on_chinese :
    ∀ s : String,
      ((s.data = [] ∨ ∃ c rest, s.data = c :: rest ∧ isHan c = true) →
        capitalizePhrase s = s) ∧
      (isChineseText s = true → capitalizePhrase s = s) := by
  intro s
  have base : ∀ c rest, s.data = c :: rest →
      (isHan c = true ∨ c = ' ' ∨ c = '-') → capitalizePhrase s = s := by
    intro c rest hdata hc
    unfold capitalizePhrase
    rw [hdata]
    show String.mk (toUpper c :: rest) = s
    rw [toUpper_eq_self_of_chinese c hc]
    exact String.ext (by rw [hdata])
  constructor
  · rintro (hnil | ⟨c, rest, hdata, hhan⟩)
    · unfold capitalizePhrase
      rw [hnil]
      show String.mk [] = s
      exact String.ext (by rw [hnil])
    · exact base c rest hdata (Or.inl hhan)
  · intro hs
    rcases hd : s.data with _ | ⟨c, rest⟩
    · unfold capitalizePhrase
      rw [hd]
      show String.mk [] = s
      exact String.ext (by rw [hd])
    · refine base c rest hd ?_
      have := (isChineseText_spec.1 s).mp hs c (by rw [hd]; exact List.mem_cons_self c rest)
      simpa using this

/-- Witness for C9 at concrete inputs: an all-Chinese phrase with a space
is left unchanged. -/
theorem capitalizePhrase_id_on_chinese_witness : capitalizePhrase "红 花" = "红 花" :=
  (capitalizePhrase_id_on_chinese "红 花").2 (by decide)

/-! ## Lemmas about the frequency table -/

theorem bumpCount_sum (counts : List (String × Nat)) (key : String) :
    ((bumpCount counts key).map Prod.snd).sum
      = (counts.map Prod.snd).sum + 1 := by
  induction counts with
  | nil => simp [bumpCount]
  | cons p rest ih =>
      obtain ⟨k, n⟩ := p
      by_cases h : k = key <;> simp [bumpCount, h, ih] <;> omega

theorem bumpCount_keys (counts : List (String × Nat)) (key : String) :
    (bumpCount counts key).map Prod.fst
      = if key ∈ counts.map Prod.fst then counts.map Prod.fst
        else counts.map Prod.fst ++ [key] := by
  induction counts with
  | nil => simp [bumpCount]
  | cons p rest ih =>
      obtain ⟨k, n⟩ := p
      by_cases h : k = key
      · simp [bumpCount, h]
      · simp only [bumpCount, if_neg h, List.map_cons, ih, List.mem_cons]
        by_cases hmem : key ∈ rest.map Prod.fst <;>
          simp [hmem, Ne.symm h]

theorem bumpCount_keys_nodup (counts : List (String × Nat)) (key : String)
    (h : (counts.map Prod.fst).Nodup) :
    ((bumpCount counts key).map Prod.fst).Nodup := by
  rw [bumpCount_keys]
  by_cases hmem : key ∈ counts.map Prod.fst
  · simpa [hmem] using h
  · simpa [hmem, List.nodup_append] using h

theorem bumpCount_mem_keys (counts : List (String × Nat)) (key s : String) :
    s ∈ (bumpCount counts key).map Prod.fst
      ↔ s = key ∨ s ∈ counts.map Prod.fst := by
  rw [bumpCount_keys]
  by_cases hmem : key ∈ counts.map Prod.fst
  · simp only [if_pos hmem]
    constructor
    · exact Or.inr
    · rintro (rfl | h)
      · exact hmem
      · exact h
  · simp [hmem, or_comm]

theorem getCount_bumpCount_self (counts : List (String × Nat)) (key : String) :
    getCount (bumpCount counts key) key = getCount counts key + 1 := by
  induction counts with
  | nil => simp [bumpCount, getCount]
  | cons p rest ih =>
      obtain ⟨k, n⟩ := p
      by_cases h : k = key <;> simp [bumpCount, getCount, h, ih]

theorem getCount_bumpCount_ne (counts : List (String × Nat)) (key s : String)
    (h : s ≠ key) :
    getCount (bumpCount counts key) s = getCount counts s := by
  have h' : key ≠ s := Ne.symm h
  induction counts with
  | nil => simp [bumpCount, getCount, h']
  | cons p rest ih =>
      obtain ⟨k, n⟩ := p
      by_cases hk : k = key
      · subst hk
        simp [bumpCount, getCount, h']
      · simp only [bumpCount, if_neg hk, getCount]
        split <;> simp [ih]

theorem getCount_eq_of_mem (counts : List (String × Nat)) (s : String)
    (n : Nat) (hnodup : (counts.map Prod.fst).Nodup)
    (hmem : (s, n) ∈ counts) : getCount counts s = n := by
  induction counts with
  | nil => simp at hmem
  | cons p rest ih =>
      obtain ⟨k, m⟩ := p
      simp only [List.map_cons, List.nodup_cons] at hnodup
      rcases List.mem_cons.mp hmem with heq | hmem2
      · obtain ⟨rfl, rfl⟩ := Prod.mk.injEq .. ▸ heq
        simp [getCount]
      · have hk : k ≠ s := by
          rintro rfl
          exact hnodup.1 (List.mem_map.mpr ⟨(k, n), hmem2, rfl⟩)
        simp [getCount, hk, ih hnodup.2 hmem2]

/-- The fold of `countFrequencies` starting from any table: key set,
key uniqueness, counts and total weight evolve as expected. -/
theorem countFrequencies_fold (items : List String) :
    ∀ acc : List (String × Nat),
      (((items.foldl
          (fun counts item => bumpCount counts (capitalizePhrase item))
          acc).map Prod.snd).sum
        = (acc.map Prod.snd).sum + items.length) ∧
      (∀ s, s ∈ (items.foldl
          (fun counts item => bumpCount counts (capitalizePhrase item))
          acc).map Prod.fst
        ↔ s ∈ acc.map Prod.fst ∨ s ∈ items.map capitalizePhrase) ∧
      ((acc.map Prod.fst).Nodup →
        ((items.foldl
          (fun counts item => bumpCount counts (capitalizePhrase item))
          acc).map Prod.fst).Nodup) ∧
      (∀ s, getCount (items.foldl
          (fun counts item => bumpCount counts (capitalizePhrase item)) acc) s
        = getCount acc s + (items.map capitalizePhrase).count s) := by
  induction items with
  | nil => intro acc; simp
  | cons x items ih =>
      intro acc
      obtain ⟨ihsum, ihmem, ihnodup, ihcount⟩ := ih (bumpCount acc (capitalizePhrase x))
      refine ⟨?_, ?_, ?_, ?_⟩
      · simp only [List.foldl_cons, List.length_cons, ihsum,
          bumpCount_sum]
        omega
      · intro s
        simp only [List.foldl_cons, ihmem, bumpCount_mem_keys,
          List.map_cons, List.mem_cons]
        tauto
      · intro hnodup
        exact ihnodup (bumpCount_keys_nodup _ _ hnodup)
      · intro s
        simp only [List.foldl_cons, ihcount, List.map_cons]
        by_cases h : s = capitalizePhrase x
        · subst h
          rw [getCount_bumpCount_self]
          simp [List.count_cons]
          omega
        · rw [getCount_bumpCount_ne _ _ _ h]
          simp [List.count_cons, h]

/-- C10: the counts in the table built by `countFrequencies` add up to the
length of the input list (no occurrence is dropped or double-counted), and
every key of the table is the capitalization of some input item. -/
theorem countFrequencies_conserves :
    ∀ items : List String,
      ((countFrequencies items).map Prod.snd).sum = items.length ∧
      ∀ p ∈ countFrequencies items, ∃ x ∈ items, p.1 = capitalizePhrase x := by
  intro items
  obtain ⟨hsum, hmem, -, -⟩ := countFrequencies_fold items []
  refine ⟨by simpa [countFrequencies] using hsum, ?_⟩
  intro p hp
  have : p.1 ∈ (countFrequencies items).map Prod.fst :=
    List.mem_map.mpr ⟨p, hp, rfl⟩
  have := (hmem p.1).mp (by simpa [countFrequencies] using this)
  simp only [List.map_nil, List.not_mem_nil, false_or] at this
  obtain ⟨x, hx, hcap⟩ := List.mem_map.mp this
  exact ⟨x, hx, hcap.symm⟩

/-- Witness for C10 at a concrete input. -/
theorem countFrequencies_conserves_witness :
    ((countFrequencies ["学霸", "学霸", "宅男"]).map Prod.snd).sum = 3 ∧
    ∃ x ∈ ["学霸", "学霸", "宅男"], "学霸" = capitalizePhrase x :=
  ⟨(countFrequencies_conserves ["学霸", "学霸", "宅男"]).1,
   (countFrequencies_conserves ["学霸", "学霸", "宅男"]).2 ("学霸", 2) (by decide)⟩

/-! ## Lemmas about the frequency sort -/

theorem sortEntries_perm (e : List (String × Nat)) : (sortEntries e).Perm e :=
  List.perm_insertionSort freqGe e

theorem sortEntries_sorted (e : List (String × Nat)) :
    List.Sorted freqGe (sortEntries e) :=
  List.sorted_insertionSort freqGe e

theorem countFrequencies_keys_nodup (items : List String) :
    ((countFrequencies items).map Prod.fst).Nodup :=
  (countFrequencies_fold items []).2.2.1 (by simp)

theorem mem_keys_countFrequencies (items : List String) (s : String) :
    s ∈ (countFrequencies items).map Prod.fst
      ↔ s ∈ items.map capitalizePhrase := by
  have h := (countFrequencies_fold items []).2.1 s
  simpa [countFrequencies] using h

theorem getCount_countFrequencies (items : List String) (s : String) :
    getCount (countFrequencies items) s = (items.map capitalizePhrase).count s := by
  have h := (countFrequencies_fold items []).2.2.2 s
  simpa [countFrequencies, getCount] using h

theorem countFrequencies_val (items : List String) (p : String × Nat)
    (hp : p ∈ countFrequencies items) :
    p.2 = (items.map capitalizePhrase).count p.1 := by
  rw [← getCount_countFrequencies]
  exact (getCount_eq_of_mem _ p.1 p.2 (countFrequencies_keys_nodup items)
    (by exact hp)).symm

theorem countFrequencies_keys_perm_dedup (items : List String) :
    ((countFrequencies items).map Prod.fst).Perm
      ((items.map capitalizePhrase).dedup) := by
  rw [List.perm_ext_iff_of_nodup (countFrequencies_keys_nodup items)
    (List.nodup_dedup _)]
  intro a
  rw [List.mem_dedup, mem_keys_countFrequencies]

theorem perm_pair_cases {α : Type} {l : List α} {a b : α}
    (h : l.Perm [a, b]) : l = [a, b] ∨ l = [b, a] := by
  have hlen := h.length_eq
  match l, h, hlen with
  | [x, y], h, _ =>
      have hx : x ∈ [a, b] := h.subset (by simp)
      rcases List.mem_cons.mp hx with rfl | hx2
      · left
        have h2 : [y].Perm [b] := (List.perm_cons x).mp h
        rw [List.perm_singleton.mp h2]
      · have hxb : x = b := by simpa using hx2
        subst hxb
        right
        have hba : ([x, y] : List α).Perm [x, a] :=
          h.trans (List.Perm.swap x a [])
        have h2 : [y].Perm [a] := (List.perm_cons x).mp hba
        rw [List.perm_singleton.mp h2]

/-- C4: for any enumeration order of the frequency table, `sortByFrequency ∘
countFrequencies` returns the distinct capitalize-normalized items ordered by
descending occurrence count; on `["学霸","学霸","宅男"]` every enumeration
yields exactly `["学霸","宅男"]`, and the empty list yields the empty list. -/
theorem rank_spec :
    (∀ (items : List String) (e : List (String × Nat)),
        e.Perm (countFrequencies items) →
        (sortByFrequency e).Perm ((items.map capitalizePhrase).dedup) ∧
        List.Sorted freqGe (sortEntries e) ∧
        ∀ p ∈ sortEntries e, p.2 = (items.map capitalizePhrase).count p.1) ∧
    (∀ e : List (String × Nat),
        e.Perm (countFrequencies ["学霸", "学霸", "宅男"]) →
        sortByFrequency e = ["学霸", "宅男"]) ∧
    sortByFrequency (countFrequencies []) = [] := by
  refine ⟨?_, ?_, by decide⟩
  · intro items e he
    refine ⟨?_, sortEntries_sorted e, ?_⟩
    · have h1 : (sortByFrequency e).Perm (e.map Prod.fst) :=
        (sortEntries_perm e).map Prod.fst
      have h2 : (e.map Prod.fst).Perm ((countFrequencies items).map Prod.fst) :=
        he.map Prod.fst
      exact (h1.trans h2).trans (countFrequencies_keys_perm_dedup items)
    · intro p hp
      have hpe : p ∈ e := (sortEntries_perm e).subset hp
      exact countFrequencies_val items p (he.subset hpe)
  · intro e he
    have hc : countFrequencies ["学霸", "学霸", "宅男"]
        = [("学霸", 2), ("宅男", 1)] := by decide
    rw [hc] at he
    rcases perm_pair_cases he with rfl | rfl <;> decide

/-- Witness for C4: the identity enumeration of the table for
`["学霸","学霸","宅男"]` yields `["学霸","宅男"]`. -/
theorem rank_spec_witness :
    sortByFrequency (countFrequencies ["学霸", "学霸", "宅男"])
      = ["学霸", "宅男"] :=
  rank_spec.2.1 (countFrequencies ["学霸", "学霸", "宅男"]) (List.Perm.refl _)

/-- C3 counterexample: the frequency table of `["学", "霸"]` holds two
equal-count entries; two enumeration orders of that same table — both
reachable, since Go randomizes `range` over maps between runs — give
byte-different rendered output files.  So byte-identical output across runs
is not guaranteed by the code. -/
theorem sortByFrequency_order_dependent :
    countFrequencies ["学", "霸"] = [("学", 1), ("霸", 1)] ∧
    ([("学", 1), ("霸", 1)] : List (String × Nat)).Perm [("霸", 1), ("学", 1)] ∧
    renderCategory [("学", 1), ("霸", 1)] = "学\n霸\n" ∧
    renderCategory [("霸", 1), ("学", 1)] = "霸\n学\n" ∧
    ("学\n霸\n" : String) ≠ "霸\n学\n" :=
  ⟨by decide, List.Perm.swap ("霸", 1) ("学", 1) [],
   by decide, by decide, by decide⟩

/-- C3 amended: across two runs the ranked output of a category is the same
only up to reordering of equal-frequency items: any two enumeration orders of
the same frequency table give outputs that are permutations of each other,
each sorted by descending frequency.  Byte-identical files are guaranteed
only when the map enumeration orders coincide. -/
theorem sortByFrequency_perm_invariant :
    ∀ l1 l2 : List (String × Nat), l1.Perm l2 →
      (sortByFrequency l1).Perm (sortByFrequency l2) ∧
      List.Sorted freqGe (sortEntries l1) ∧
      List.Sorted freqGe (sortEntries l2) := by
  intro l1 l2 h
  exact ⟨((sortEntries_perm l1).map Prod.fst).trans
      ((h.map Prod.fst).trans ((sortEntries_perm l2).map Prod.fst).symm),
    sortEntries_sorted l1, sortEntries_sorted l2⟩

/-- Witness for the amended C3 at the two concrete enumerations of the
counterexample table. -/
theorem sortByFrequency_perm_invariant_witness :
    (sortByFrequency [("学", 1), ("霸", 1)]).Perm
      (sortByFrequency [("霸", 1), ("学", 1)]) ∧
    List.Sorted freqGe (sortEntries [("学", 1), ("霸", 1)]) ∧
    List.Sorted freqGe (sortEntries [("霸", 1), ("学", 1)]) :=
  sortByFrequency_perm_invariant _ _ (List.Perm.swap ("霸", 1) ("学", 1) [])

/-! ## Lemmas about the phrase chunker -/

theorem chunkAux_all_in_group (grp : List String) :
    ∀ (tokens : List Token) (cur : List String),
      (∀ t ∈ tokens, isChineseText t.text = true ∧ t.tag ∈ grp) →
      cur ++ tokens.map Token.text ≠ [] →
      chunkAux grp tokens cur
        = [String.intercalate " " (cur ++ tokens.map Token.text)] := by
  intro tokens
  induction tokens with
  | nil =>
      intro cur hall hne
      simp only [List.map_nil, List.append_nil] at hne ⊢
      simp [chunkAux, hne]
  | cons t rest ih =>
      intro cur hall hne
      obtain ⟨hchin, hgrp⟩ := hall t (List.mem_cons_self t rest)
      have hrest : ∀ u ∈ rest, isChineseText u.text = true ∧ u.tag ∈ grp :=
        fun u hu => hall u (List.mem_cons_of_mem t hu)
      simp only [chunkAux, hchin, if_pos hgrp, if_true]
      rw [ih (cur ++ [t.text]) hrest (by simp)]
      simp

/-- C5: a non-empty pending buffer is flushed once more when the token
stream ends, so the final phrase is not lost: a non-empty all-in-group
Chinese stream yields exactly one phrase, the space-join of all its token
texts; in particular `[⟨"红","NN"⟩, ⟨"花","JJ"⟩]` in the noun group yields
exactly `["红 花"]`. -/
theorem chunk_trailing_flush :
    (∀ (grp : List String) (tokens : List Token), tokens ≠ [] →
        (∀ t ∈ tokens, isChineseText t.text = true ∧ t.tag ∈ grp) →
        chunkAux grp tokens []
          = [String.intercalate " " (tokens.map Token.text)]) ∧
    extractNounPhrases [⟨"红", "NN"⟩, ⟨"花", "JJ"⟩] = ["红 花"] := by
  constructor
  · intro grp tokens hne hall
    rw [chunkAux_all_in_group grp tokens [] hall (by simpa using hne)]
    simp
  · decide

/-- Witness for C5 at the concrete noun-group stream of the claim. -/
theorem chunk_trailing_flush_witness :
    chunkAux ["DT", "NN", "JJ"] [⟨"红", "NN"⟩, ⟨"花", "JJ"⟩] []
      = [String.intercalate " "
          (([⟨"红", "NN"⟩, ⟨"花", "JJ"⟩] : List Token).map Token.text)] :=
  chunk_trailing_flush.1 ["DT", "NN", "JJ"] [⟨"红", "NN"⟩, ⟨"花", "JJ"⟩]
    (by decide) (by decide)

/-- C1 counterexample: in `extractNounPhrases` the non-Chinese token
`⟨"ab","NN"⟩` does NOT act as a flush-and-skip group boundary: the buffer
holding `"红"` survives it and the single emitted phrase `"红 花"` joins
tokens from before and after it, where flush-and-skip would have emitted
`["红", "花"]`. -/
theorem nonchinese_token_not_boundary :
    isChineseText "ab" = false ∧
    extractNounPhrases [⟨"红", "NN"⟩, ⟨"ab", "NN"⟩, ⟨"花", "NN"⟩] = ["红 花"] ∧
    (["红 花"] : List String) ≠ ["红", "花"] := by
  refine ⟨by decide, by decide, by decide⟩

theorem chunkAux_filter_chinese (grp : List String) :
    ∀ (tokens : List Token) (cur : List String),
      chunkAux grp (tokens.filter (fun t => isChineseText t.text)) cur
        = chunkAux grp tokens cur := by
  intro tokens
  induction tokens with
  | nil => intro cur; rfl
  | cons t rest ih =>
      intro cur
      by_cases hchin : isChineseText t.text
      · simp only [List.filter_cons, hchin, if_true]
        by_cases hgrp : t.tag ∈ grp
        · simp only [chunkAux, hchin, if_pos hgrp, if_true, ih]
        · by_cases hcur : cur = [] <;>
            simp only [chunkAux, hchin, if_neg hgrp, if_true, hcur,
              if_pos, if_neg, ih]
      · have hfalse : isChineseText t.text = false := by
          simpa using hchin
        simp only [List.filter_cons, hfalse, Bool.false_eq_true, if_false,
          chunkAux, ih]

theorem chunkAux_phrases_sound (grp : List String) (Q : String → Prop) :
    ∀ (tokens : List Token) (cur : List String),
      (∀ x ∈ cur, Q x) →
      (∀ t ∈ tokens, isChineseText t.text = true → t.tag ∈ grp → Q t.text) →
      ∀ p ∈ chunkAux grp tokens cur,
        ∃ run : List String, run ≠ [] ∧ (∀ x ∈ run, Q x) ∧
          p = String.intercalate " " run := by
  intro tokens
  induction tokens with
  | nil =>
      intro cur hcur _ p hp
      simp only [chunkAux] at hp
      by_cases hne : cur = []
      · simp [hne] at hp
      · simp only [if_neg hne, List.mem_singleton] at hp
        exact ⟨cur, hne, hcur, hp⟩
  | cons t rest ih =>
      intro cur hcur hall p hp
      have hrest : ∀ u ∈ rest, isChineseText u.text = true → u.tag ∈ grp →
          Q u.text :=
        fun u hu => hall u (List.mem_cons_of_mem t hu)
      by_cases hchin : isChineseText t.text
      · by_cases hgrp : t.tag ∈ grp
        · simp only [chunkAux, hchin, if_pos hgrp, if_true] at hp
          refine ih (cur ++ [t.text]) ?_ hrest p hp
          intro x hx
          rcases List.mem_append.mp hx with hx | hx
          · exact hcur x hx
          · rw [List.mem_singleton.mp hx]
            exact hall t (List.mem_cons_self t rest) hchin hgrp
        · by_cases hne : cur = []
          · simp only [chunkAux, hchin, if_neg hgrp, if_true, hne,
              if_pos rfl] at hp
            exact ih [] (by simp) hrest p (by simpa [hne] using hp)
          · simp only [chunkAux, hchin, if_neg hgrp, if_true, if_neg hne,
              List.mem_cons] at hp
            rcases hp with rfl | hp
            · exact ⟨cur, hne, hcur, rfl⟩
            · exact ih [] (by simp) hrest p hp
      · have hfalse : isChineseText t.text = false := by simpa using hchin
        simp only [chunkAux, hfalse, Bool.false_eq_true, if_false] at hp
        exact ih cur hcur hrest p hp

/-- C1 amended: a token failing the Script Filter is skipped with the
pending buffer left intact — it is invisible to the chunker rather than a
flush boundary, so phrases may span non-Chinese tokens (only an in-script
out-of-group token flushes); still, every emitted phrase is the space-join
of at least one buffered token text, each coming from an in-group Chinese
token of the stream. -/
theorem chunk_skips_nonchinese :
    ∀ (grp : List String) (tokens : List Token),
      chunkAux grp (tokens.filter (fun t => isChineseText t.text)) []
        = chunkAux grp tokens [] ∧
      ∀ p ∈ chunkAux grp tokens [],
        ∃ run : List String, run ≠ [] ∧
          (∀ x ∈ run, ∃ t ∈ tokens,
            isChineseText t.text = true ∧ t.tag ∈ grp ∧ x = t.text) ∧
          p = String.intercalate " " run := by
  intro grp tokens
  refine ⟨chunkAux_filter_chinese grp tokens [], ?_⟩
  exact chunkAux_phrases_sound grp
    (fun x => ∃ t ∈ tokens, isChineseText t.text = true ∧ t.tag ∈ grp ∧
      x = t.text)
    tokens [] (by simp)
    (fun t ht hchin hgrp => ⟨t, ht, hchin, hgrp, rfl⟩)

/-- Witness for the amended C1 at the counterexample stream: the phrase
`"红 花"` is the join of a non-empty run of in-group Chinese token texts. -/
theorem chunk_skips_nonchinese_witness :
    ∃ run : List String, run ≠ [] ∧
      (∀ x ∈ run, ∃ t ∈ [(⟨"红", "NN"⟩ : Token), ⟨"ab", "NN"⟩, ⟨"花", "NN"⟩],
        isChineseText t.text = true ∧ t.tag ∈ ["DT", "NN", "JJ"] ∧
        x = t.text) ∧
      "红 花" = String.intercalate " " run :=
  (chunk_skips_nonchinese ["DT", "NN", "JJ"]
      [⟨"红", "NN"⟩, ⟨"ab", "NN"⟩, ⟨"花", "NN"⟩]).2 "红 花" (by decide)

/-! ## Lemmas about the classifier -/

theorem bind_if_singleton {α β : Type} (p : α → Bool) (f : α → β)
    (l : List α) :
    (l.flatMap fun x => if p x then [f x] else []) = (l.filter p).map f := by
  induction l with
  | nil => rfl
  | cons x l ih => by_cases h : p x <;> simp [h, ih, List.filter_cons]

set_option maxHeartbeats 1000000 in
/-- One classifier step, field by field: each list of the `results` map
grows by exactly the contribution the Go `switch`, the idiom check and the
slang check make for this token. -/
theorem classifyStep_eq (il sl : List String) (r : Classified) (t : Token) :
    classifyStep il sl r t =
      { characters := r.characters ++
          (if isChineseText t.text then extractChineseCharacters t.text
            else []),
        nouns := r.nouns ++
          (if isChineseText t.text && t.tag == "NN" then [t.text] else []),
        verbs := r.verbs ++
          (if isChineseText t.text && t.tag == "VB" then [t.text] else []),
        adjectives := r.adjectives ++
          (if isChineseText t.text && t.tag == "JJ" then [t.text] else []),
        adverbs := r.adverbs ++
          (if isChineseText t.text && t.tag == "RB" then [t.text] else []),
        otherExpressions := r.otherExpressions ++
          (if isChineseText t.text &&
              !(t.tag == "NN" || t.tag == "VB" || t.tag == "JJ" ||
                t.tag == "RB") then [t.text] else []),
        idioms := r.idioms ++
          (if isChineseText t.text && matchesPhraseList t.text il
            then [t.text] else []),
        slang := r.slang ++
          (if isChineseText t.text && matchesPhraseList t.text sl
            then [t.text] else []) } := by
  unfold classifyStep
  by_cases h1 : isChineseText t.text
  · by_cases h2 : t.tag = "NN" <;> by_cases h3 : t.tag = "VB" <;>
    by_cases h4 : t.tag = "JJ" <;> by_cases h5 : t.tag = "RB" <;>
    by_cases h6 : matchesPhraseList t.text il <;>
    by_cases h7 : matchesPhraseList t.text sl <;>
    simp_all
  · simp [h1]

theorem categorizeTokens_fold (il sl : List String) :
    ∀ (toks : List Token) (r : Classified),
      toks.foldl (classifyStep il sl) r =
        { characters := r.characters ++ (toks.flatMap fun t =>
            if isChineseText t.text then extractChineseCharacters t.text
            else []),
          nouns := r.nouns ++ (toks.flatMap fun t =>
            if isChineseText t.text && t.tag == "NN" then [t.text] else []),
          verbs := r.verbs ++ (toks.flatMap fun t =>
            if isChineseText t.text && t.tag == "VB" then [t.text] else []),
          adjectives := r.adjectives ++ (toks.flatMap fun t =>
            if isChineseText t.text && t.tag == "JJ" then [t.text] else []),
          adverbs := r.adverbs ++ (toks.flatMap fun t =>
            if isChineseText t.text && t.tag == "RB" then [t.text] else []),
          otherExpressions := r.otherExpressions ++ (toks.flatMap fun t =>
            if isChineseText t.text &&
                !(t.tag == "NN" || t.tag == "VB" || t.tag == "JJ" ||
                  t.tag == "RB") then [t.text] else []),
          idioms := r.idioms ++ (toks.flatMap fun t =>
            if isChineseText t.text && matchesPhraseList t.text il
              then [t.text] else []),
          slang := r.slang ++ (toks.flatMap fun t =>
            if isChineseText t.text && matchesPhraseList t.text sl
              then [t.text] else []) } := by
  intro toks
  induction toks with
  | nil => intro r; simp
  | cons t rest ih =>
      intro r
      rw [List.foldl_cons, ih (classifyStep il sl r t), classifyStep_eq]
      simp [List.append_assoc]

theorem countP_partition (toks : List Token) :
    toks.countP (fun t => isChineseText t.text && t.tag == "NN")
      + toks.countP (fun t => isChineseText t.text && t.tag == "VB")
      + toks.countP (fun t => isChineseText t.text && t.tag == "JJ")
      + toks.countP (fun t => isChineseText t.text && t.tag == "RB")
      + toks.countP (fun t => isChineseText t.text &&
          !(t.tag == "NN" || t.tag == "VB" || t.tag == "JJ" || t.tag == "RB"))
      = toks.countP (fun t => isChineseText t.text) := by
  induction toks with
  | nil => rfl
  | cons t rest ih =>
      simp only [List.countP_cons]
      by_cases h1 : isChineseText t.text <;>
      by_cases h2 : t.tag = "NN" <;> by_cases h3 : t.tag = "VB" <;>
      by_cases h4 : t.tag = "JJ" <;> by_cases h5 : t.tag = "RB" <;>
      simp_all <;> omega

theorem categorizeTokens_nouns (il sl : List String) (toks : List Token) :
    (categorizeTokens il sl toks).nouns
      = (toks.filter fun t =>
          isChineseText t.text && t.tag == "NN").map Token.text := by
  rw [categorizeTokens, categorizeTokens_fold il sl toks Classified.empty]
  show Classified.empty.nouns ++ (toks.flatMap fun t =>
      if isChineseText t.text && t.tag == "NN" then [t.text] else [])
    = (toks.filter fun t => isChineseText t.text && t.tag == "NN").map
        Token.text
  rw [bind_if_singleton]
  rfl

theorem categorizeTokens_verbs (il sl : List String) (toks : List Token) :
    (categorizeTokens il sl toks).verbs
      = (toks.filter fun t =>
          isChineseText t.text && t.tag == "VB").map Token.text := by
  rw [categorizeTokens, categorizeTokens_fold il sl toks Classified.empty]
  show Classified.empty.verbs ++ (toks.flatMap fun t =>
      if isChineseText t.text && t.tag == "VB" then [t.text] else [])
    = (toks.filter fun t => isChineseText t.text && t.tag == "VB").map
        Token.text
  rw [bind_if_singleton]
  rfl

theorem categorizeTokens_adjectives (il sl : List String) (toks : List Token) :
    (categorizeTokens il sl toks).adjectives
      = (toks.filter fun t =>
          isChineseText t.text && t.tag == "JJ").map Token.text := by
  rw [categorizeTokens, categorizeTokens_fold il sl toks Classified.empty]
  show Classified.empty.adjectives ++ (toks.flatMap fun t =>
      if isChineseText t.text && t.tag == "JJ" then [t.text] else [])
    = (toks.filter fun t => isChineseText t.text && t.tag == "JJ").map
        Token.text
  rw [bind_if_singleton]
  rfl

theorem categorizeTokens_adverbs (il sl : List String) (toks : List Token) :
    (categorizeTokens il sl toks).adverbs
      = (toks.filter fun t =>
          isChineseText t.text && t.tag == "RB").map Token.text := by
  rw [categorizeTokens, categorizeTokens_fold il sl toks Classified.empty]
  show Classified.empty.adverbs ++ (toks.flatMap fun t =>
      if isChineseText t.text && t.tag == "RB" then [t.text] else [])
    = (toks.filter fun t => isChineseText t.text && t.tag == "RB").map
        Token.text
  rw [bind_if_singleton]
  rfl

theorem categorizeTokens_others (il sl : List String) (toks : List Token) :
    (categorizeTokens il sl toks).otherExpressions
      = (toks.filter fun t => isChineseText t.text &&
          !(t.tag == "NN" || t.tag == "VB" || t.tag == "JJ" ||
            t.tag == "RB")).map Token.text := by
  rw [categorizeTokens, categorizeTokens_fold il sl toks Classified.empty]
  show Classified.empty.otherExpressions ++ (toks.flatMap fun t =>
      if isChineseText t.text &&
          !(t.tag == "NN" || t.tag == "VB" || t.tag == "JJ" || t.tag == "RB")
        then [t.text] else [])
    = (toks.filter fun t => isChineseText t.text &&
        !(t.tag == "NN" || t.tag == "VB" || t.tag == "JJ" ||
          t.tag == "RB")).map Token.text
  rw [bind_if_singleton]
  rfl

theorem categorizeTokens_idioms (il sl : List String) (toks : List Token) :
    (categorizeTokens il sl toks).idioms
      = (toks.filter fun t =>
          isChineseText t.text && matchesPhraseList t.text il).map
          Token.text := by
  rw [categorizeTokens, categorizeTokens_fold il sl toks Classified.empty]
  show Classified.empty.idioms ++ (toks.flatMap fun t =>
      if isChineseText t.text && matchesPhraseList t.text il
        then [t.text] else [])
    = (toks.filter fun t =>
        isChineseText t.text && matchesPhraseList t.text il).map Token.text
  rw [bind_if_singleton]
  rfl

theorem categorizeTokens_slang (il sl : List String) (toks : List Token) :
    (categorizeTokens il sl toks).slang
      = (toks.filter fun t =>
          isChineseText t.text && matchesPhraseList t.text sl).map
          Token.text := by
  rw [categorizeTokens, categorizeTokens_fold il sl toks Classified.empty]
  show Classified.empty.slang ++ (toks.flatMap fun t =>
      if isChineseText t.text && matchesPhraseList t.text sl
        then [t.text] else [])
    = (toks.filter fun t =>
        isChineseText t.text && matchesPhraseList t.text sl).map Token.text
  rw [bind_if_singleton]
  rfl

/-- C2: each token passing the Script Filter lands in exactly one of the
five primary buckets, once per occurrence: the Nouns, Verbs, Adjectives and
Adverbs lists are exactly the texts of the Chinese tokens tagged `NN`, `VB`,
`JJ`, `RB` respectively, OtherExpressions is exactly the texts of the
Chinese tokens with any other tag, and the five bucket sizes add up to the
number of Chinese tokens. -/
theorem classifier_primary_partition :
    ∀ (il sl : List String) (toks : List Token),
      (categorizeTokens il sl toks).nouns
        = (toks.filter fun t =>
            isChineseText t.text && t.tag == "NN").map Token.text ∧
      (categorizeTokens il sl toks).verbs
        = (toks.filter fun t =>
            isChineseText t.text && t.tag == "VB").map Token.text ∧
      (categorizeTokens il sl toks).adjectives
        = (toks.filter fun t =>
            isChineseText t.text && t.tag == "JJ").map Token.text ∧
      (categorizeTokens il sl toks).adverbs
        = (toks.filter fun t =>
            isChineseText t.text && t.tag == "RB").map Token.text ∧
      (categorizeTokens il sl toks).otherExpressions
        = (toks.filter fun t => isChineseText t.text &&
            !(t.tag == "NN" || t.tag == "VB" || t.tag == "JJ" ||
              t.tag == "RB")).map Token.text ∧
      (categorizeTokens il sl toks).nouns.length
          + (categorizeTokens il sl toks).verbs.length
          + (categorizeTokens il sl toks).adjectives.length
          + (categorizeTokens il sl toks).adverbs.length
          + (categorizeTokens il sl toks).otherExpressions.length
        = (toks.filter fun t => isChineseText t.text).length := by
  intro il sl toks
  refine ⟨categorizeTokens_nouns il sl toks, categorizeTokens_verbs il sl toks,
    categorizeTokens_adjectives il sl toks, categorizeTokens_adverbs il sl toks,
    categorizeTokens_others il sl toks, ?_⟩
  rw [categorizeTokens_nouns, categorizeTokens_verbs,
    categorizeTokens_adjectives, categorizeTokens_adverbs,
    categorizeTokens_others]
  simp only [List.length_map, ← List.countP_eq_length_filter]
  exact countP_partition toks

/-- C6: a Chinese token's text is appended to Idioms exactly when its whole
text case-insensitively equals some idiom-list entry, and to Slang exactly
when it equals some slang-list entry, independently of its tag; a strict
substring of a listed idiom does not match, and a token can sit in a
primary bucket and a secondary list at once (`学霸` tagged `NN` is in both
Nouns and Slang). -/
theorem classifier_secondary_lists :
    (∀ (il sl : List String) (toks : List Token),
      (categorizeTokens il sl toks).idioms
        = (toks.filter fun t =>
            isChineseText t.text && matchesPhraseList t.text il).map
            Token.text ∧
      (categorizeTokens il sl toks).slang
        = (toks.filter fun t =>
            isChineseText t.text && matchesPhraseList t.text sl).map
            Token.text) ∧
    matchesPhraseList "井底" idioms = false ∧
    (categorizeTokens idioms slang [⟨"学霸", "NN"⟩]).nouns = ["学霸"] ∧
    (categorizeTokens idioms slang [⟨"学霸", "NN"⟩]).slang = ["学霸"] :=
  ⟨fun il sl toks =>
    ⟨categorizeTokens_idioms il sl toks, categorizeTokens_slang il sl toks⟩,
   by decide, by decide, by decide⟩
